import Mathlib

/-!
Verification of the uniV3-pool-states block-range replay pipeline.

Shallow embedding of the core components, translated from the Rust source:
  - the buffered storage sink (src/db.rs, BufferedClickhouse::poll),
  - the per-block replay session (src/pools/fetcher.rs, PoolDBInner::execute_cycle)
    and block caller (PoolCaller::execute_block, PoolCaller::decode_transactions),
  - the range scheduler (src/handler.rs, PoolHandler::poll),
  - the tick-bitmap decoder (src/pools/ticks.rs, TickFetcher::get_ticks),
  - the slot0 price computation (src/pools/slot0.rs, PoolSlot0Fetcher::calculate_price),
  - the trade record constructor (src/pools/types.rs, PoolTrade::new).

Machine integers are modelled by Nat/Int (the programs under study never
overflow in the regimes the claims quantify over; where a claim would reach an
overflow the accompanying theorem carries the corresponding bound as a
hypothesis).  Fallible Rust code returns Except, a Rust panic is Option.none,
and the two hand-rolled poll loops become, respectively, a deterministic
per-poll step function driven by an event schedule (the sink) and a labelled
transition relation (the scheduler).
-/

/-! ## Buffered sink (src/db.rs)

`BufferedClickhouse` owns a pending `queue`, an `inserting` batch and an
optional in-flight insert future.  The future is represented by the batch of
records it was created with (`Self::insert(db, this.inserting.clone())`).
Each call to `poll` observes one event from the input channel
(`rx.poll_recv`) and one completion event of the in-flight future, exactly as
in the source. -/

/-- State of `BufferedClickhouse` (src/db.rs lines 77-84): the pending
`queue`, the `inserting` batch, the in-flight insert future `fut` (modelled by
the batch it carries) and the configured `insert_size`. -/
structure BufferedSink (R : Type) where
  queue : List R
  inserting : List R
  fut : Option (List R)
  insertSize : Nat
  deriving Repr, DecidableEq

/-- Result of `rx.poll_recv(cx)` in one call to `poll`: still pending, a
received vector of records, or the channel closed (`None`). -/
inductive RxPoll (R : Type) where
  | pending : RxPoll R
  | recv (vals : List R) : RxPoll R
  | closed : RxPoll R
  deriving Repr, DecidableEq

/-- Result of polling the in-flight insert future: pending, finished
successfully, or finished with an error. -/
inductive FutPoll where
  | pending : FutPoll
  | ok : FutPoll
  | failed : FutPoll
  deriving Repr, DecidableEq

/-- Queue contents after the `rx` branch of `poll`: a received vector is
appended to the pending queue (`this.queue.extend(vals)`). -/
def queueAfterRecv {R : Type} (q : List R) (rx : RxPoll R) : List R :=
  match rx with
  | .recv vals => q ++ vals
  | _ => q

/-- Whether this poll observed the input channel closed. -/
def RxPoll.isClosed {R : Type} : RxPoll R → Bool
  | .closed => true
  | _ => false

/-- Outcome of one call to `BufferedClickhouse::poll`: the successor state,
whether the future returned `Poll::Ready(())` (shutdown), and the batch of a
flush started in this poll, if any. -/
structure SinkPollOut (R : Type) where
  st : BufferedSink R
  finished : Bool
  flushed : Option (List R)
  deriving Repr, DecidableEq

/-- One call to `BufferedClickhouse::poll` (src/db.rs lines 123-163).
Mirrors the source: first the `rx.poll_recv` branch (extend the queue on
`Some`, or on `None` either shut down - when queue, inserting and fut are all
empty - or set the local `is_finished` flag); then the future branch (retry
the identical `inserting` batch on error, clear `inserting` on success);
otherwise, when no future is in flight, start a flush of the **entire**
pending queue if its length reached `insert_size` or `is_finished` was set. -/
def bufferedPoll {R : Type} (st : BufferedSink R) (rx : RxPoll R) (ins : FutPoll) :
    SinkPollOut R :=
  let shutdown :=
    match rx with
    | .closed => st.queue.isEmpty && st.inserting.isEmpty && st.fut.isNone
    | _ => false
  if shutdown then ⟨st, true, none⟩
  else
    let queue1 := queueAfterRecv st.queue rx
    match st.fut with
    | some b =>
      match ins with
      | .failed => ⟨⟨queue1, st.inserting, some st.inserting, st.insertSize⟩, false, none⟩
      | .ok => ⟨⟨queue1, [], none, st.insertSize⟩, false, none⟩
      | .pending => ⟨⟨queue1, st.inserting, some b, st.insertSize⟩, false, none⟩
    | none =>
      if st.insertSize ≤ queue1.length || rx.isClosed then
        ⟨⟨[], queue1, some queue1, st.insertSize⟩, false, some queue1⟩
      else
        ⟨⟨queue1, st.inserting, none, st.insertSize⟩, false, none⟩

/-- Drive the sink over a schedule of poll events, collecting the batches of
all started flushes; stops once `poll` returns `Poll::Ready(())`. -/
def bufferedRun {R : Type} (st : BufferedSink R) :
    List (RxPoll R × FutPoll) → BufferedSink R × List (List R) × Bool
  | [] => (st, [], false)
  | (rx, ins) :: rest =>
    let out := bufferedPoll st rx ins
    if out.finished then (out.st, [], true)
    else
      let next := bufferedRun out.st rest
      (next.1, (out.flushed.toList) ++ next.2.1, next.2.2)

/-- Invariant of the sink relating the in-flight future to the `inserting`
batch: the future always carries exactly the current `inserting` batch, and
when no future is in flight the `inserting` batch is empty. -/
def SinkInv {R : Type} (st : BufferedSink R) : Prop :=
  (∀ b, st.fut = some b → b = st.inserting) ∧ (st.fut = none → st.inserting = [])

/-- Iterate `n` polls in which the in-flight insert fails each time (and the
input channel stays pending). -/
def pollFailN {R : Type} : Nat → BufferedSink R → BufferedSink R
  | 0, st => st
  | n + 1, st => pollFailN n (bufferedPoll st .pending .failed).st

/-- The arrival schedule of the spec's sink test vector: four record vectors
of sizes 1, 1, 2, 1 arriving in consecutive polls, followed by the input
channel closing, with the in-flight inserts succeeding when polled. -/
def sinkDemoEvents : List (RxPoll Nat × FutPoll) :=
  [(.recv [1], .pending), (.recv [2], .pending), (.recv [3, 4], .pending),
   (.recv [5], .pending), (.closed, .ok), (.closed, .pending), (.closed, .ok),
   (.closed, .pending)]

/-! ## Replay session (src/pools/fetcher.rs, PoolDBInner::execute_cycle)

The session owns a copy-on-write overlay (`CacheDB`, modelled abstractly by a
state type) and replays the parent block's transactions in order.  The EVM is
abstracted by a `transact` function returning either an error (the
`eth_api.transact` call itself failed), or an execution result carrying a
success flag and a state diff; `commit` applies a diff to the overlay.  The
extraction callback `f` receives the overlay by mutable reference, so it is
modelled as returning the (possibly read-cache-extended) overlay as well. -/

/-- Result of `eth_api.transact(&mut self.state_db, env)` for one replayed
transaction: the call itself can fail (`errored`), or return an
`ExecutionResult` whose `is_success()` is the Bool, together with the state
diff `res.state`. -/
inductive TransactOutcome (Diff : Type) where
  | errored : TransactOutcome Diff
  | executed (success : Bool) (diff : Diff) : TransactOutcome Diff

/-- Abstract environment of a replay session: the EVM `transact` step, the
`DatabaseCommit::commit` operation on the overlay, the transaction hash
projection, membership in the pool's touched-set (`pool_txs: HashSet<TxHash>`)
and the extraction callback `f`.  Type parameters: overlay `St`, state diff
`Diff`, transaction `Tx`, hash `H`, record `R`, error `E`. -/
structure ReplayEnv (St Diff Tx H R E : Type) where
  transact : St → Tx → TransactOutcome Diff
  commit : St → Diff → St
  txHash : Tx → H
  touched : H → Bool
  callback : St → Nat → H → Nat → Except E (List R × St)

/-- One iteration of the `execute_cycle` loop (src/pools/fetcher.rs lines
326-360) at global index `i`: on a transact error the iteration yields no
record and leaves the overlay untouched (the `if let Ok` silently drops the
error); on an execution result the diff is committed unconditionally, and only
a successful transaction whose hash is in the touched-set invokes the
callback, whose error propagates. -/
def replayStep {St Diff Tx H R E : Type} (env : ReplayEnv St Diff Tx H R E)
    (blockNumber : Nat) (i : Nat) (s : St) (tx : Tx) : Except E (List R × St) :=
  match env.transact s tx with
  | .errored => .ok ([], s)
  | .executed success diff =>
    let s1 := env.commit s diff
    if success then
      if env.touched (env.txHash tx) then
        match env.callback s1 blockNumber (env.txHash tx) i with
        | .error e => .error e
        | .ok (recs, s2) => .ok (recs, s2)
      else .ok ([], s1)
    else .ok ([], s1)

/-- The `execute_cycle` fold over the parent block's transactions starting at
index `i`, threading the overlay left to right and concatenating the records
of the matched transactions; the first callback error aborts the whole
cycle (the `collect::<eyre::Result<_>>()?`). -/
def executeCycleFrom {St Diff Tx H R E : Type} (env : ReplayEnv St Diff Tx H R E)
    (blockNumber : Nat) : List Tx → Nat → St → Except E (List R × St)
  | [], _, s => .ok ([], s)
  | tx :: rest, i, s =>
    match replayStep env blockNumber i s tx with
    | .error e => .error e
    | .ok (r1, s1) =>
      match executeCycleFrom env blockNumber rest (i + 1) s1 with
      | .error e => .error e
      | .ok (r2, s2) => .ok (r1 ++ r2, s2)

/-- `PoolDBInner::execute_cycle` (src/pools/fetcher.rs lines 315-369): replay
all parent-block transactions from index 0 on the seeded overlay and return
the concatenated records. -/
def executeCycle {St Diff Tx H R E : Type} (env : ReplayEnv St Diff Tx H R E)
    (blockNumber : Nat) (parentBlockTxs : List Tx) (s0 : St) : Except E (List R) :=
  (executeCycleFrom env blockNumber parentBlockTxs 0 s0).map (fun p => p.1)

/-- `PoolCaller::execute_block` (src/pools/fetcher.rs lines 63-71): run the
block and forward the records; any error from either stage is surfaced to the
scheduler as a `(block_number, error)` pair, and on success the number of
applicable pools is returned. -/
def executeBlock {R E : Type} (blockNumber : Nat) (poolsLen : Nat)
    (runBlockRes : Except E (List R)) (send : List R → Except E Unit) :
    Except (Nat × E) Nat :=
  match runBlockRes with
  | .error e => .error (blockNumber, e)
  | .ok data =>
    match send data with
    | .error e => .error (blockNumber, e)
    | .ok _ => .ok poolsLen

/-! ## Decode-only path (src/pools/fetcher.rs, PoolCaller::decode_transactions)

A decode-only extractor is its pool address, its `is_decoded` capability flag
and its `decode_block` function over the matched trace calls.  The grouped
trace map `block_txs: HashMap<Address, Vec<FilteredTraceCall>>` is an
association list; `Option.none` models the panic of the missing-key
`.unwrap()` (a rayon worker panic propagates out of the whole
`decode_transactions`, dominating any `Err` of a sibling pool). -/

/-- A decode-only view of a pool extractor: address, `is_decoded` flag, and
the `decode_block` operation applied to the calls grouped under its address. -/
structure DecodePool (A C R E : Type) where
  poolAddress : A
  isDecoded : Bool
  decodeBlockFn : List C → Except E (List R)

/-- Lookup in the grouped trace map (`block_txs.get(&pool.pool_address())`). -/
def lookupCalls {A C : Type} [DecidableEq A] (blockTxs : List (A × List C)) (a : A) :
    Option (List C) :=
  (blockTxs.find? (fun p => p.1 = a)).map (fun p => p.2)

/-- Concatenate per-pool decode results, short-circuiting on the first error
(`collect::<eyre::Result<Vec<_>>>()?` then `flatten`). -/
def collectDecoded {R E : Type} : List (Except E (List R)) → Except E (List R)
  | [] => .ok []
  | .error e :: _ => .error e
  | .ok r :: rest =>
    match collectDecoded rest with
    | .error e => .error e
    | .ok rs => .ok (r ++ rs)

/-- Sequence a list of optional values, `none` (a worker panic) dominating. -/
def optionTraverse {α β : Type} (f : α → Option β) : List α → Option (List β)
  | [] => some []
  | a :: l =>
    match f a with
    | none => none
    | some b =>
      match optionTraverse f l with
      | none => none
      | some bs => some (b :: bs)

/-- `PoolCaller::decode_transactions` (src/pools/fetcher.rs lines 145-165):
for every pool with `is_decoded`, look its address up in the grouped trace map
and `.unwrap()` the result - a missing key is a panic (`none`); otherwise
decode each pool's calls and concatenate, errors short-circuiting. -/
def decodeTransactions {A C R E : Type} [DecidableEq A]
    (pools : List (DecodePool A C R E)) (blockTxs : List (A × List C)) :
    Option (Except E (List R)) :=
  (optionTraverse
    (fun p => (lookupCalls blockTxs p.poolAddress).map p.decodeBlockFn)
    (pools.filter (fun p => p.isDecoded))).map collectDecoded

/-- The decode path of `PoolCaller::decode_block` (src/pools/fetcher.rs lines
80-107) after the traces have been fetched and grouped: an empty group map
short-circuits to zero records; otherwise `decode_transactions` runs (on the
worker pool). -/
def decodeBlockGrouped {A C R E : Type} [DecidableEq A]
    (pools : List (DecodePool A C R E)) (blockTxs : List (A × List C)) :
    Option (Except E (List R)) :=
  if blockTxs.isEmpty then some (.ok []) else decodeTransactions pools blockTxs

/-- A concrete decode-only pool at address 1 whose decoder returns no
records. -/
def decodeDemoPool : DecodePool Nat Nat Nat Nat :=
  ⟨1, true, fun _ => .ok []⟩

/-- Sequential composition of two replay stages: the records of the first are
prepended to those the second produces from the first stage's final overlay;
an error in either stage aborts. -/
def cycleComp {St R E : Type} (a : Except E (List R × St))
    (f : St → Except E (List R × St)) : Except E (List R × St) :=
  match a with
  | .error e => .error e
  | .ok (r1, s1) =>
    match f s1 with
    | .error e => .error e
    | .ok (r2, s2) => .ok (r1 ++ r2, s2)

/-- A demonstration environment in which transaction 0 reverts with a
non-trivial state diff (the overlay is a counter, commit adds the diff) and
transaction 1 succeeds, is in the touched-set, and records the overlay it
observes. -/
def envRevertDemo : ReplayEnv Nat Nat Nat Nat Nat Unit where
  transact := fun _ tx => if tx = 0 then .executed false 5 else .executed true 0
  commit := fun s d => s + d
  txHash := fun tx => tx
  touched := fun h => h == 1
  callback := fun s _ _ _ => .ok ([s], s)

/-- A demonstration environment in which `eth_api.transact` itself fails on
every transaction. -/
def envErrDemo : ReplayEnv Nat Nat Nat Nat Nat Unit where
  transact := fun _ _ => .errored
  commit := fun s d => s + d
  txHash := fun tx => tx
  touched := fun _ => true
  callback := fun s _ _ _ => .ok ([s], s)

/-- A demonstration environment in which every transaction succeeds with its
own value as diff and every hash is in the touched-set. -/
def envOrderDemo : ReplayEnv Nat Nat Nat Nat Nat Unit where
  transact := fun _ tx => .executed true tx
  commit := fun s d => s + d
  txHash := fun tx => tx
  touched := fun _ => true
  callback := fun s _ _ _ => .ok ([s], s)

/-! ## Range scheduler (src/handler.rs, PoolHandler::poll)

`PoolHandler::new(node, db_tx, pools, start_block, end_block, handle)` stores
`current_block := end_block` and `end_block := start_block` (the field names
are swapped relative to the constructor arguments), so the cursor walks the
range downward from the configured end height to the configured start height.
The poll loop interleaves three actions - spawn a `PoolCaller` at the cursor
while `end_block <= current_block` and `active_tasks <= MAX_TASKS`, drain one
completed caller (success frees its work units, failure respawns the same
height), and return `Ready` once the future set is empty and the cursor has
passed the start - which we model as a labelled transition relation driven by
a nondeterministic completion order.

The `u64` cursor is modelled by Int; this is exact as long as the configured
start height is at least 1, since then the cursor never goes below
`start_block - 1 >= 0` and the `current_block -= 1` never underflows. -/

/-- The constant `MAX_TASKS` of src/handler.rs line 15. -/
def MAX_TASKS : Nat := 15000

/-- Scheduler state (src/handler.rs lines 17-26) together with the event
history needed to state the claims: `currentBlock` is the cursor,
`endBlock` holds the configured **start** height (the constructor swap),
`inFlight` is the multiset of heights with a caller in the future set,
`spawnedFresh` records the heights spawned by the cursor loop (not retries),
and `succeeded` records the heights whose caller reported success. -/
structure SchedState where
  currentBlock : Int
  endBlock : Int
  inFlight : Multiset Int
  activeTasks : Nat
  spawnedFresh : Multiset Int
  succeeded : Multiset Int
  finished : Bool
  deriving DecidableEq

/-- The state built by `PoolHandler::new` for configured range
`[startBlock, endBlock]`: cursor at the configured end, `endBlock` field
holding the configured start, nothing in flight. -/
def schedInit (startBlock endBlock : Int) : SchedState :=
  ⟨endBlock, startBlock, 0, 0, 0, 0, false⟩

/-- One transition of the `PoolHandler::poll` loop. `poolsLen h` is the
number of pool fetchers applicable at height `h`
(`pool.earliest_block() <= h`), the work units consumed by that caller. -/
inductive SchedStep (poolsLen : Int → Nat) : SchedState → SchedState → Prop
  | spawn (s : SchedState)
      (hcur : s.endBlock ≤ s.currentBlock)
      (hbudget : s.activeTasks ≤ MAX_TASKS)
      (hrun : s.finished = false) :
      SchedStep poolsLen s
        ⟨s.currentBlock - 1, s.endBlock, s.currentBlock ::ₘ s.inFlight,
          s.activeTasks + poolsLen s.currentBlock,
          s.currentBlock ::ₘ s.spawnedFresh, s.succeeded, false⟩
  | succeed (s : SchedState) (h : Int)
      (hmem : h ∈ s.inFlight)
      (hrun : s.finished = false) :
      SchedStep poolsLen s
        ⟨s.currentBlock, s.endBlock, s.inFlight.erase h,
          s.activeTasks - poolsLen h,
          s.spawnedFresh, h ::ₘ s.succeeded, false⟩
  | fail (s : SchedState) (h : Int)
      (hmem : h ∈ s.inFlight)
      (hrun : s.finished = false) :
      SchedStep poolsLen s
        ⟨s.currentBlock, s.endBlock, h ::ₘ s.inFlight.erase h,
          s.activeTasks, s.spawnedFresh, s.succeeded, false⟩
  | finish (s : SchedState)
      (hempty : s.inFlight = 0)
      (hpast : s.currentBlock < s.endBlock)
      (hrun : s.finished = false) :
      SchedStep poolsLen s
        ⟨s.currentBlock, s.endBlock, s.inFlight, s.activeTasks,
          s.spawnedFresh, s.succeeded, true⟩

/-- Reachability under the scheduler transitions. -/
def SchedReach (poolsLen : Int → Nat) (a b : SchedState) : Prop :=
  Relation.ReflTransGen (SchedStep poolsLen) a b

/-- Inductive invariant of the scheduler for configured range
`[startBlock, endBlock]`: the cursor stays within `[startBlock - 1, endBlock]`,
each height strictly above the cursor and at most the configured end has been
freshly spawned exactly once and is accounted for exactly once between the
in-flight set and the success events, and the terminal flag implies an empty
future set with an exhausted cursor. -/
def SchedInv (startBlock endBlock : Int) (s : SchedState) : Prop :=
  s.endBlock = startBlock ∧
  startBlock - 1 ≤ s.currentBlock ∧ s.currentBlock ≤ endBlock ∧
  (∀ h : Int,
    s.spawnedFresh.count h = (if s.currentBlock < h ∧ h ≤ endBlock then 1 else 0) ∧
    s.succeeded.count h + s.inFlight.count h =
      (if s.currentBlock < h ∧ h ≤ endBlock then 1 else 0)) ∧
  (s.finished = true → s.inFlight = 0 ∧ s.currentBlock < startBlock)

/-- A demonstration work-unit weight: one pool applicable at every height. -/
def schedDemoLen : Int → Nat := fun _ => 1

/-! ## Tick-bitmap decoding (src/pools/ticks.rs, TickFetcher::get_ticks)

A bitmap word is a `U256` (a natural below 2^256, only bits 0..255 are ever
tested), its word index an `i16` widened to `i32` by the source; tick indices
are `i32`.  The claims stay far from the `i32` boundaries, so indices are
modelled by Int. -/

/-- `TickFetcher::get_ticks` (src/pools/ticks.rs lines 75-98): for every
bitmap word, if the word is non-zero, decode each set bit `i` of its 256 bits
into the tick index `(idx * 256 + i) * tick_spacing`; a zero word contributes
nothing; results are concatenated across words. -/
def getTicks (bitmaps : List (Int × Nat)) (tickSpacing : Int) : List Int :=
  bitmaps.flatMap (fun wm =>
    if wm.2 ≠ 0 then
      (List.range 256).filterMap (fun i =>
        if wm.2.testBit i then some ((wm.1 * 256 + (i : Int)) * tickSpacing)
        else none)
    else [])

/-- The per-pool word range of `TickFetcher::new` (src/pools/ticks.rs lines
17-24): `min_word = -887272 >> 8` and `max_word = 887272 >> 8` (arithmetic
shift on `i32`, so the negative bound rounds toward negative infinity). -/
def tickFetcherMinWord : Int := -887272 >>> 8

/-- The upper word bound of `TickFetcher::new`. -/
def tickFetcherMaxWord : Int := 887272 >>> 8

/-! ## Slot0 price (src/pools/slot0.rs, PoolSlot0Fetcher::calculate_price)

The source computes, with malachite exact rational arithmetic,
`Rational(sqrt_price^2, 2^192) * Rational(10^token0_decimals,
10^token1_decimals)` and only then rounds to the nearest `f64`.  We model the
exact rational value, and rounding to nearest with an explicit predicate over
the representable binary floating-point values. -/

/-- The exact rational computed by `PoolSlot0Fetcher::calculate_price`
(src/pools/slot0.rs lines 41-53) before the final rounding to `f64`. -/
def calculatePriceQ (sqrtPriceX96 token0Decimals token1Decimals : Nat) : ℚ :=
  ((sqrtPriceX96 : ℚ) ^ 2 / 2 ^ 192) *
    ((10 : ℚ) ^ token0Decimals / (10 : ℚ) ^ token1Decimals)

/-- The spec's formula for the slot0 price:
`(sqrtPriceX96^2 / 2^192) * 10^(token0_decimals - token1_decimals)`, with the
exponent difference taken over the integers. -/
def slot0PriceSpecQ (sqrtPriceX96 token0Decimals token1Decimals : Nat) : ℚ :=
  ((sqrtPriceX96 : ℚ) ^ 2 / 2 ^ 192) *
    (10 : ℚ) ^ ((token0Decimals : Int) - (token1Decimals : Int))

/-- A rational is representable as an IEEE754 binary64 significand-exponent
pair: `m * 2^e` with `|m| ≤ 2^53`.  The exponent is unbounded, which only
enlarges the set of candidates a nearest rounding competes against. -/
def FloatRep (r : ℚ) : Prop :=
  ∃ m e : Int, |m| ≤ 2 ^ 53 ∧ r = (m : ℚ) * (2 : ℚ) ^ e

/-- `r` is a nearest representable binary64 value to the exact rational `q`
(the `RoundingMode::Nearest` used by the source). -/
def NearestF64 (q r : ℚ) : Prop :=
  FloatRep r ∧ ∀ s : ℚ, FloatRep s → |q - r| ≤ |q - s|

/-- The `sqrt_price_x96` of the spec's slot0 price test vector. -/
def slot0TestSqrtPrice : Nat := 1284929393637281108785461745518480

/-- The exact rational price at the spec's slot0 test vector
(`token0_decimals = 6`, `token1_decimals = 18`). -/
def slot0TestPriceQ : ℚ := calculatePriceQ slot0TestSqrtPrice 6 18

/-- The binary64 value nearest to `slot0TestPriceQ`:
`4851980905071922 * 2^(-64) = 0.00026302641190685814...`. -/
def slot0TestPriceF64 : ℚ := 4851980905071922 / 2 ^ 64

/-! ## Trade records (src/pools/types.rs, PoolTrade::new)

`PoolTrade::new` assigns the in/out sides from the `zeroForOne` direction flag
of the decoded call input, takes the signed amounts from the decoded call
output (`amount0`/`amount1`), and computes
`Rational(|in|, |out|) / Rational(in_decimals, out_decimals)` - note: the
ratio of the decimal **counts**, not of powers of ten - rounding to nearest
`f64` at the end. -/

/-- One side of a trade: token address, decimal count, signed amount. -/
structure TradeSide (A : Type) where
  token : A
  decimals : Nat
  amount : Int
  deriving Repr, DecidableEq

/-- The in/out assignment of `PoolTrade::new` (src/pools/types.rs lines
152-165): when `zeroForOne` is set, token-in is the token1 side with
`amount1` and token-out the token0 side with `amount0`; otherwise the
reverse. -/
def poolTradeSides {A : Type} (zeroForOne : Bool) (token0 token1 : A)
    (d0 d1 : Nat) (amount0 amount1 : Int) : TradeSide A × TradeSide A :=
  if zeroForOne then (⟨token1, d1, amount1⟩, ⟨token0, d0, amount0⟩)
  else (⟨token0, d0, amount0⟩, ⟨token1, d1, amount1⟩)

/-- The exact rational computed for `calculated_price` by `PoolTrade::new`
(src/pools/types.rs lines 172-180) before the final rounding:
`(|token_in_amount| / |token_out_amount|) / (token_in_decimals /
token_out_decimals)`. -/
def tradePriceQ (tokenInAmount tokenOutAmount : Int)
    (tokenInDecimals tokenOutDecimals : Nat) : ℚ :=
  ((|tokenInAmount| : Int) : ℚ) / ((|tokenOutAmount| : Int) : ℚ) /
    ((tokenInDecimals : ℚ) / (tokenOutDecimals : ℚ))

/-- The trade price the spec describes: the ratio of the absolute amounts
adjusted by the tokens' decimal places with the same power-of-ten strategy as
the slot0 price, i.e. `(|in| / |out|) * 10^(out_decimals - in_decimals)`. -/
def tradePriceSpecQ (tokenInAmount tokenOutAmount : Int)
    (tokenInDecimals tokenOutDecimals : Nat) : ℚ :=
  ((|tokenInAmount| : Int) : ℚ) / ((|tokenOutAmount| : Int) : ℚ) *
    (10 : ℚ) ^ ((tokenOutDecimals : Int) - (tokenInDecimals : Int))

/-! ## Theorems: tick-bitmap decoding (claim C7) -/

/-- Membership characterization of `get_ticks`: exactly the set bits of the
listed bitmap words are decoded, a set bit `b` of word `wm` decoding to
`(word_index * 256 + b) * tick_spacing`. -/
theorem mem_getTicks (bms : List (Int × Nat)) (s t : Int) :
    t ∈ getTicks bms s ↔
      ∃ wm, wm ∈ bms ∧ ∃ b : Nat, b < 256 ∧ wm.2.testBit b = true ∧
        t = (wm.1 * 256 + (b : Int)) * s := by
  unfold getTicks
  rw [List.mem_flatMap]
  constructor
  · rintro ⟨wm, hwm, ht⟩
    refine ⟨wm, hwm, ?_⟩
    by_cases h0 : wm.2 ≠ 0
    · rw [if_pos h0, List.mem_filterMap] at ht
      obtain ⟨i, hi, hif⟩ := ht
      rw [List.mem_range] at hi
      by_cases hbit : wm.2.testBit i
      · rw [if_pos hbit, Option.some.injEq] at hif
        exact ⟨i, hi, hbit, hif.symm⟩
      · rw [if_neg hbit] at hif
        exact absurd hif (Option.noConfusion)
    · rw [if_neg h0] at ht
      exact absurd ht (List.not_mem_nil t)
  · rintro ⟨wm, hwm, b, hb, hbit, ht⟩
    refine ⟨wm, hwm, ?_⟩
    have h0 : wm.2 ≠ 0 := by
      intro h
      rw [h] at hbit
      simp [Nat.zero_testBit] at hbit
    rw [if_pos h0, List.mem_filterMap]
    exact ⟨b, List.mem_range.mpr hb, by rw [if_pos hbit, ht]⟩

/-- C7 counterexample: bitmap word index 4 with bit 10 set and tick spacing 60
decodes to the tick 62040 = (4*256+10)*60, not to 61560 as the claim states
(61560 would correspond to bit offset 2, not 10). -/
theorem getTicks_word4_bit10_ne_61560 :
    getTicks [((4 : Int), 2 ^ 10)] 60 = [62040] ∧
      getTicks [((4 : Int), 2 ^ 10)] 60 ≠ [61560] := by
  constructor
  · decide
  · decide

/-- C7 (amended): the tick-info extractor decodes exactly the set bits of each
bitmap word, a set bit at offset `b` of word `w` decoding to tick
`(w * 256 + b) * tick_spacing`, with negative word indices handled sign-aware;
word index 4 with bit 10 set and tick spacing 60 decodes to 62040 (the value
`(4*256+10)*60`), word index -1 with bit 255 set and tick spacing 10 decodes
to -10, and an all-zero word contributes no ticks. -/
theorem tick_bitmap_decoding :
    (∀ (bms : List (Int × Nat)) (s t : Int),
      t ∈ getTicks bms s ↔
        ∃ wm, wm ∈ bms ∧ ∃ b : Nat, b < 256 ∧ wm.2.testBit b = true ∧
          t = (wm.1 * 256 + (b : Int)) * s) ∧
    getTicks [((4 : Int), 2 ^ 10)] 60 = [62040] ∧
    getTicks [((-1 : Int), 2 ^ 255)] 10 = [-10] ∧
    (∀ (w s : Int) (bms : List (Int × Nat)), getTicks ((w, 0) :: bms) s = getTicks bms s) := by
  refine ⟨mem_getTicks, by decide, by decide, ?_⟩
  intro w s bms
  unfold getTicks
  rw [List.flatMap_cons]
  simp

/-! ## Theorems: replay session (claims C1, C2, C9) -/


theorem cycleComp_ok_nil {St R E : Type} (s : St) (f : St → Except E (List R × St)) :
    cycleComp (.ok ([], s)) f = f s := by
  cases h : f s with
  | error e => simp [cycleComp, h]
  | ok p => obtain ⟨r2, s2⟩ := p; simp [cycleComp, h]

theorem cycleComp_assoc {St R E : Type} (a : Except E (List R × St))
    (f g : St → Except E (List R × St)) :
    cycleComp (cycleComp a f) g = cycleComp a (fun s => cycleComp (f s) g) := by
  cases a with
  | error e => simp [cycleComp]
  | ok p =>
    obtain ⟨r1, s1⟩ := p
    cases hf : f s1 with
    | error e => simp [cycleComp, hf]
    | ok q =>
      obtain ⟨r2, s2⟩ := q
      cases hg : g s2 with
      | error e => simp [cycleComp, hf, hg]
      | ok w =>
        obtain ⟨r3, s3⟩ := w
        simp [cycleComp, hf, hg]

theorem executeCycleFrom_cons {St Diff Tx H R E : Type} (env : ReplayEnv St Diff Tx H R E)
    (bn : Nat) (tx : Tx) (l : List Tx) (i : Nat) (s : St) :
    executeCycleFrom env bn (tx :: l) i s =
      cycleComp (replayStep env bn i s tx)
        (fun s1 => executeCycleFrom env bn l (i + 1) s1) := by
  cases h : replayStep env bn i s tx with
  | error e => simp [executeCycleFrom, cycleComp, h]
  | ok p =>
    obtain ⟨r1, s1⟩ := p
    cases h2 : executeCycleFrom env bn l (i + 1) s1 with
    | error e => simp [executeCycleFrom, cycleComp, h, h2]
    | ok q =>
      obtain ⟨r2, s2⟩ := q
      simp [executeCycleFrom, cycleComp, h, h2]

theorem executeCycleFrom_append {St Diff Tx H R E : Type} (env : ReplayEnv St Diff Tx H R E)
    (bn : Nat) (xs ys : List Tx) (i : Nat) (s : St) :
    executeCycleFrom env bn (xs ++ ys) i s =
      cycleComp (executeCycleFrom env bn xs i s)
        (fun s1 => executeCycleFrom env bn ys (i + xs.length) s1) := by
  induction xs generalizing i s with
  | nil =>
    simp only [List.nil_append, List.length_nil, Nat.add_zero]
    rw [show executeCycleFrom env bn ([] : List Tx) i s = .ok ([], s) from rfl,
      cycleComp_ok_nil]
  | cons tx xs ih =>
    rw [List.cons_append, executeCycleFrom_cons, executeCycleFrom_cons, cycleComp_assoc]
    have harith : ∀ j : Nat, j + 1 + xs.length = j + (tx :: xs).length := by
      intro j; simp [List.length_cons]; omega
    simp only [ih, harith]


/-- C1 counterexample: in `envRevertDemo` transaction 0 reverts
(`is_success = false`) with state diff 5, yet its diff **is** committed into
the overlay - the step yields overlay 5, not the unchanged overlay 0 the
claim requires, and the subsequent matched transaction observes overlay 5.
The source commits `res.state` before testing `res.result.is_success()`
(src/pools/fetcher.rs lines 338-354). -/
theorem replay_revert_commit_not_skipped :
    envRevertDemo.transact 0 0 = .executed false 5 ∧
    replayStep envRevertDemo 7 0 0 0 = .ok ([], 5) ∧
    replayStep envRevertDemo 7 0 0 0 ≠ .ok ([], 0) ∧
    executeCycle envRevertDemo 7 [0, 1] 0 = .ok [5] := by
  refine ⟨rfl, rfl, ?_, rfl⟩
  intro h
  rw [show replayStep envRevertDemo 7 0 0 0 = .ok ([], 5) from rfl] at h
  injection h with h2
  exact absurd (congrArg Prod.snd h2) (by decide)

/-- C1 (amended): for a parent-block transaction whose simulation reverts or
halts, the state diff is nevertheless committed into the overlay; only the
extraction is skipped - the step produces no record and raises no error,
whether or not the transaction's hash is in the touched-set. -/
theorem replay_revert_committed {St Diff Tx H R E : Type}
    (env : ReplayEnv St Diff Tx H R E) (bn i : Nat) (s : St) (tx : Tx) (d : Diff)
    (hrev : env.transact s tx = .executed false d) :
    replayStep env bn i s tx = .ok ([], env.commit s d) := by
  unfold replayStep
  rw [hrev]
  simp

/-- Witness for `replay_revert_committed` at the concrete reverting
transaction of `envRevertDemo`. -/
theorem replay_revert_committed_witness :
    replayStep envRevertDemo 7 0 0 0 = .ok ([], envRevertDemo.commit 0 5) :=
  replay_revert_committed envRevertDemo 7 0 0 0 5 rfl

/-- C2: the replay cycle processes the parent block's transactions strictly in
original index order - replaying `xs ++ ys` from index `i` equals replaying
`xs`, then replaying `ys` from index `i + xs.length` starting at the overlay
`xs` produced, records concatenated in order - and a successful matched
transaction's callback runs against the overlay exactly as it stands after
that transaction's commit (`env.commit s d`). -/
theorem executeCycle_in_order {St Diff Tx H R E : Type}
    (env : ReplayEnv St Diff Tx H R E) (bn : Nat) :
    (∀ (xs ys : List Tx) (i : Nat) (s : St),
      executeCycleFrom env bn (xs ++ ys) i s =
        cycleComp (executeCycleFrom env bn xs i s)
          (fun s1 => executeCycleFrom env bn ys (i + xs.length) s1)) ∧
    (∀ (i : Nat) (s : St) (tx : Tx) (d : Diff) (recs : List R) (s2 : St),
      env.transact s tx = .executed true d →
      env.touched (env.txHash tx) = true →
      env.callback (env.commit s d) bn (env.txHash tx) i = .ok (recs, s2) →
      replayStep env bn i s tx = .ok (recs, s2)) := by
  refine ⟨executeCycleFrom_append env bn, ?_⟩
  intro i s tx d recs s2 htr htouch hcb
  unfold replayStep
  rw [htr]
  simp [htouch, hcb]

/-- Witness for `executeCycle_in_order`: in `envOrderDemo`, the matched
transaction 3 at index 1 on overlay 5 is extracted against the post-commit
overlay 8 = 5 + 3. -/
theorem executeCycle_in_order_witness :
    replayStep envOrderDemo 9 1 5 3 = .ok ([8], 8) :=
  (executeCycle_in_order envOrderDemo 9).2 1 5 3 3 [8] 8 rfl rfl rfl

/-- C9 counterexample: in `envErrDemo` the `transact` call fails on the only
replayed transaction (an unexpected simulation error), yet the block caller
completes successfully - `execute_cycle` silently drops the error (the
`if let Ok` of src/pools/fetcher.rs line 338) and `execute_block` returns
`Ok`, so no `(height, error)` pair reaches the scheduler. -/
theorem transact_error_not_surfaced :
    envErrDemo.transact 0 0 = .errored ∧
    executeBlock 5 1 (executeCycle envErrDemo 5 [0] 0) (fun _ => .ok ()) = .ok 1 :=
  ⟨rfl, rfl⟩

/-- C9 (amended): errors of the replay cycle itself (extraction-callback or
provider failures materializing as an `Except.error`) and errors of the record
send are surfaced to the scheduler as a `(height, error)` pair, and a
reverting transaction yields no record and no error; but an error of the
per-transaction `transact` call is silently swallowed - the transaction is
skipped with the overlay unchanged, no record and no error. -/
theorem error_surfacing_policy {St Diff Tx H R E : Type}
    (env : ReplayEnv St Diff Tx H R E) :
    (∀ (bn i : Nat) (s : St) (tx : Tx),
      env.transact s tx = .errored → replayStep env bn i s tx = .ok ([], s)) ∧
    (∀ (bn pl : Nat) (res : Except E (List R)) (send : List R → Except E Unit) (e : E),
      res = .error e → executeBlock bn pl res send = .error (bn, e)) ∧
    (∀ (bn pl : Nat) (data : List R) (send : List R → Except E Unit) (e : E),
      send data = .error e → executeBlock bn pl (.ok data) send = .error (bn, e)) ∧
    (∀ (bn i : Nat) (s : St) (tx : Tx) (d : Diff),
      env.transact s tx = .executed false d →
      replayStep env bn i s tx = .ok ([], env.commit s d)) := by
  refine ⟨?_, ?_, ?_, fun bn i s tx d h => replay_revert_committed env bn i s tx d h⟩
  · intro bn i s tx h
    unfold replayStep
    rw [h]
  · intro bn pl res send e h
    rw [h]
    rfl
  · intro bn pl data send e h
    simp [executeBlock, h]

/-- Witness for `error_surfacing_policy` at concrete inputs: a swallowed
transact error, a surfaced run error, a surfaced send error and a committed
revert. -/
theorem error_surfacing_policy_witness :
    replayStep envErrDemo 5 0 0 0 = .ok ([], 0) ∧
    executeBlock 5 1 (Except.error () : Except Unit (List Nat)) (fun _ => .ok ()) =
      .error (5, ()) ∧
    executeBlock 5 1 (.ok [] : Except Unit (List Nat)) (fun _ => .error ()) =
      .error (5, ()) ∧
    replayStep envRevertDemo 5 0 0 0 = .ok ([], envRevertDemo.commit 0 5) :=
  ⟨(error_surfacing_policy envErrDemo).1 5 0 0 0 rfl,
   (error_surfacing_policy envErrDemo).2.1 5 1 (Except.error ()) (fun _ => .ok ()) () rfl,
   (error_surfacing_policy envErrDemo).2.2.1 5 1 [] (fun _ => .error ()) () rfl,
   (error_surfacing_policy envRevertDemo).2.2.2 5 0 0 0 5 rfl⟩

/-! ## Theorems: buffered sink (claims C4, C5) -/

@[simp] theorem RxPoll.isClosed_pending {R : Type} :
    (RxPoll.pending : RxPoll R).isClosed = false := rfl

@[simp] theorem RxPoll.isClosed_recv {R : Type} (vals : List R) :
    (RxPoll.recv vals).isClosed = false := rfl

@[simp] theorem RxPoll.isClosed_closed {R : Type} :
    (RxPoll.closed : RxPoll R).isClosed = true := rfl

theorem bufferedPoll_shutdown {R : Type} (st : BufferedSink R) (ins : FutPoll)
    (h1 : st.queue = []) (h2 : st.inserting = []) (h3 : st.fut = none) :
    bufferedPoll st .closed ins = ⟨st, true, none⟩ := by
  simp [bufferedPoll, h1, h2, h3]

theorem bufferedPoll_fail {R : Type} (st : BufferedSink R) (rx : RxPoll R)
    (b : List R) (hfut : st.fut = some b) :
    bufferedPoll st rx .failed =
      ⟨⟨queueAfterRecv st.queue rx, st.inserting, some st.inserting, st.insertSize⟩,
        false, none⟩ := by
  cases rx <;> simp [bufferedPoll, hfut, queueAfterRecv]

theorem bufferedPoll_insertOk {R : Type} (st : BufferedSink R) (rx : RxPoll R)
    (b : List R) (hfut : st.fut = some b) :
    bufferedPoll st rx .ok =
      ⟨⟨queueAfterRecv st.queue rx, [], none, st.insertSize⟩, false, none⟩ := by
  cases rx <;> simp [bufferedPoll, hfut, queueAfterRecv]

theorem bufferedPoll_insertPending {R : Type} (st : BufferedSink R) (rx : RxPoll R)
    (b : List R) (hfut : st.fut = some b) :
    bufferedPoll st rx .pending =
      ⟨⟨queueAfterRecv st.queue rx, st.inserting, some b, st.insertSize⟩, false, none⟩ := by
  cases rx <;> simp [bufferedPoll, hfut, queueAfterRecv]

theorem bufferedPoll_flush {R : Type} (st : BufferedSink R) (rx : RxPoll R)
    (ins : FutPoll) (hfut : st.fut = none) (hrx : rx.isClosed = false)
    (hc : st.insertSize ≤ (queueAfterRecv st.queue rx).length) :
    bufferedPoll st rx ins =
      ⟨⟨[], queueAfterRecv st.queue rx, some (queueAfterRecv st.queue rx),
        st.insertSize⟩, false, some (queueAfterRecv st.queue rx)⟩ := by
  cases rx <;> simp_all [bufferedPoll, queueAfterRecv]

theorem bufferedPoll_noFlush {R : Type} (st : BufferedSink R) (rx : RxPoll R)
    (ins : FutPoll) (hfut : st.fut = none) (hrx : rx.isClosed = false)
    (hc : ¬ st.insertSize ≤ (queueAfterRecv st.queue rx).length) :
    bufferedPoll st rx ins =
      ⟨⟨queueAfterRecv st.queue rx, st.inserting, none, st.insertSize⟩, false, none⟩ := by
  cases rx <;> simp_all [bufferedPoll, queueAfterRecv]

theorem bufferedPoll_closed_drain {R : Type} (st : BufferedSink R) (ins : FutPoll)
    (hfut : st.fut = none)
    (hne : (st.queue.isEmpty && st.inserting.isEmpty) = false) :
    bufferedPoll st .closed ins =
      ⟨⟨[], st.queue, some st.queue, st.insertSize⟩, false, some st.queue⟩ := by
  simp [bufferedPoll, hfut, queueAfterRecv, hne]

/-- C4 counterexample: with batch size 3 and record vectors of sizes
[1, 1, 2, 1] arriving in consecutive polls followed by input close, the sink
performs exactly two flushes of sizes 4 and 1 - not 3 and 2 as the claim
states.  The flush drains the whole pending queue once its length reaches
**or exceeds** the batch size, so the third vector (queue length 1+1+2 = 4)
triggers a flush of all 4 records. -/
theorem sink_flushes_4_then_1 :
    (bufferedRun ⟨[], [], none, 3⟩ sinkDemoEvents).2.1 = [[1, 2, 3, 4], [5]] ∧
    (bufferedRun ⟨[], [], none, 3⟩ sinkDemoEvents).2.2 = true ∧
    List.map List.length [[1, 2, 3, 4], [5]] = [4, 1] ∧
    ([4, 1] : List Nat) ≠ [3, 2] := by
  refine ⟨by decide, by decide, by decide, by decide⟩

/-- C4 (amended): with no insert in flight (and no shutdown this poll), the
sink starts a flush exactly when the pending queue length after this poll's
arrival reaches **or exceeds** the batch size, or the input channel is
observed closed; the flush always drains the entire pending queue into the
in-flight batch.  Hence groups [1, 1, 2, 1] with batch size 3 produce two
flushes of sizes 4 and 1 (see the counterexample run). -/
theorem sink_flush_trigger {R : Type} (st : BufferedSink R) (rx : RxPoll R)
    (ins : FutPoll) (hfut : st.fut = none)
    (hrun : (bufferedPoll st rx ins).finished = false) :
    (bufferedPoll st rx ins).flushed =
      (if st.insertSize ≤ (queueAfterRecv st.queue rx).length ∨ rx.isClosed = true
        then some (queueAfterRecv st.queue rx) else none) ∧
    ((bufferedPoll st rx ins).flushed = some (queueAfterRecv st.queue rx) →
      (bufferedPoll st rx ins).st.queue = [] ∧
      (bufferedPoll st rx ins).st.inserting = queueAfterRecv st.queue rx) := by
  cases rx with
  | pending =>
    by_cases hc : st.insertSize ≤ st.queue.length
    · simp [bufferedPoll, hfut, queueAfterRecv, RxPoll.isClosed, hc]
    · simp [bufferedPoll, hfut, queueAfterRecv, RxPoll.isClosed, hc]
  | recv vals =>
    by_cases hc : st.insertSize ≤ st.queue.length + vals.length
    · simp [bufferedPoll, hfut, queueAfterRecv, RxPoll.isClosed, hc]
    · simp [bufferedPoll, hfut, queueAfterRecv, RxPoll.isClosed, hc]
  | closed =>
    by_cases hsd : (st.queue.isEmpty && st.inserting.isEmpty) = true
    · exfalso
      simp [bufferedPoll, hfut, hsd] at hrun
    · simp [bufferedPoll, hfut, hsd, queueAfterRecv, RxPoll.isClosed]

/-- Witness for `sink_flush_trigger` at a concrete state: queue [1, 2], batch
size 3, a vector [3] arriving, no insert in flight. -/
theorem sink_flush_trigger_witness :
    (bufferedPoll (⟨[1, 2], [], none, 3⟩ : BufferedSink Nat) (.recv [3]) .pending).flushed =
      (if (⟨[1, 2], [], none, 3⟩ : BufferedSink Nat).insertSize ≤
            (queueAfterRecv (⟨[1, 2], [], none, 3⟩ : BufferedSink Nat).queue
              (.recv [3])).length ∨ (RxPoll.recv [3]).isClosed = true
        then some (queueAfterRecv (⟨[1, 2], [], none, 3⟩ : BufferedSink Nat).queue
          (.recv [3]))
        else none) ∧
    ((bufferedPoll (⟨[1, 2], [], none, 3⟩ : BufferedSink Nat) (.recv [3]) .pending).flushed =
        some (queueAfterRecv (⟨[1, 2], [], none, 3⟩ : BufferedSink Nat).queue (.recv [3])) →
      (bufferedPoll (⟨[1, 2], [], none, 3⟩ : BufferedSink Nat)
        (.recv [3]) .pending).st.queue = [] ∧
      (bufferedPoll (⟨[1, 2], [], none, 3⟩ : BufferedSink Nat)
        (.recv [3]) .pending).st.inserting =
        queueAfterRecv (⟨[1, 2], [], none, 3⟩ : BufferedSink Nat).queue (.recv [3])) :=
  sink_flush_trigger ⟨[1, 2], [], none, 3⟩ (.recv [3]) .pending rfl rfl

theorem sink_inv_preserved {R : Type} (st : BufferedSink R) (rx : RxPoll R)
    (ins : FutPoll) (hinv : SinkInv st) : SinkInv (bufferedPoll st rx ins).st := by
  obtain ⟨hsome, hnone⟩ := hinv
  cases hfut : st.fut with
  | some b =>
    cases ins with
    | failed =>
      rw [bufferedPoll_fail st rx b hfut]
      refine ⟨fun x hx => ?_, fun h => ?_⟩
      · simp at hx
        simp [hx]
      · simp at h
    | ok =>
      rw [bufferedPoll_insertOk st rx b hfut]
      refine ⟨fun x hx => ?_, fun h => ?_⟩
      · simp at hx
      · rfl
    | pending =>
      rw [bufferedPoll_insertPending st rx b hfut]
      refine ⟨fun x hx => ?_, fun h => ?_⟩
      · simp at hx
        rw [← hx]
        exact hsome b hfut
      · simp at h
  | none =>
    have hins := hnone hfut
    cases hrx : rx.isClosed with
    | false =>
      by_cases hc : st.insertSize ≤ (queueAfterRecv st.queue rx).length
      · rw [bufferedPoll_flush st rx ins hfut hrx hc]
        refine ⟨fun x hx => ?_, fun h => ?_⟩
        · simp at hx
          simp [hx]
        · simp at h
      · rw [bufferedPoll_noFlush st rx ins hfut hrx hc]
        exact ⟨fun x hx => by simp at hx, fun _ => hins⟩
    | true =>
      have hrx2 : rx = .closed := by cases rx <;> simp_all [RxPoll.isClosed]
      subst hrx2
      by_cases hsd : (st.queue.isEmpty && st.inserting.isEmpty) = true
      · rw [Bool.and_eq_true, List.isEmpty_iff, List.isEmpty_iff] at hsd
        rw [bufferedPoll_shutdown st ins hsd.1 hsd.2 hfut]
        exact ⟨hsome, hnone⟩
      · rw [bufferedPoll_closed_drain st ins hfut (by simpa using hsd)]
        refine ⟨fun x hx => ?_, fun h => ?_⟩
        · simp at hx
          simp [hx]
        · simp at h

/-- C5: when an in-flight insert fails, the sink retries exactly the same
batch - the new in-flight future carries the unchanged `inserting` batch and
the pending queue keeps accumulating untouched; after any number `n` of
consecutive failures the batch is still identical to attempt 1; and an
in-flight batch is cleared only by a successful insert (the invariant
`SinkInv` - future batch = `inserting`, and `inserting` empty when idle - is
preserved by every poll). -/
theorem sink_retry_identical {R : Type} :
    (∀ (st : BufferedSink R) (rx : RxPoll R) (ins : FutPoll),
      SinkInv st → SinkInv (bufferedPoll st rx ins).st) ∧
    (∀ (st : BufferedSink R) (b : List R) (rx : RxPoll R),
      st.fut = some b → b = st.inserting →
      (bufferedPoll st rx .failed).st.fut = some b ∧
      (bufferedPoll st rx .failed).st.inserting = b ∧
      (bufferedPoll st rx .failed).st.queue = queueAfterRecv st.queue rx) ∧
    (∀ (st : BufferedSink R) (b : List R) (n : Nat),
      st.fut = some b → b = st.inserting →
      (pollFailN n st).fut = some b ∧ (pollFailN n st).inserting = b) ∧
    (∀ (st : BufferedSink R) (b : List R) (rx : RxPoll R) (ins : FutPoll),
      st.fut = some b → (bufferedPoll st rx ins).st.fut = none → ins = .ok) := by
  refine ⟨sink_inv_preserved, ?_, ?_, ?_⟩
  · intro st b rx hfut hb
    rw [bufferedPoll_fail st rx b hfut]
    exact ⟨by simp [hb], by simp [hb], rfl⟩
  · intro st b n
    induction n generalizing st with
    | zero => exact fun hfut hb => ⟨hfut, hb.symm⟩
    | succ n ih =>
      intro hfut hb
      rw [pollFailN, bufferedPoll_fail st .pending b hfut]
      exact ih _ (by simp [hb]) hb
  · intro st b rx ins hfut hdone
    cases ins with
    | failed => rw [bufferedPoll_fail st rx b hfut] at hdone; simp at hdone
    | pending => rw [bufferedPoll_insertPending st rx b hfut] at hdone; simp at hdone
    | ok => rfl

/-- Witness for `sink_retry_identical` at a concrete state with batch [1, 2]
in flight: the invariant is preserved, a failed insert retries the identical
batch while the queue keeps the arrival, and two consecutive failures still
carry batch [1, 2]. -/
theorem sink_retry_identical_witness :
    SinkInv (bufferedPoll (⟨[9], [1, 2], some [1, 2], 3⟩ : BufferedSink Nat)
      .pending .pending).st ∧
    ((bufferedPoll (⟨[9], [1, 2], some [1, 2], 3⟩ : BufferedSink Nat)
        (.recv [7]) .failed).st.fut = some [1, 2] ∧
      (bufferedPoll (⟨[9], [1, 2], some [1, 2], 3⟩ : BufferedSink Nat)
        (.recv [7]) .failed).st.inserting = [1, 2] ∧
      (bufferedPoll (⟨[9], [1, 2], some [1, 2], 3⟩ : BufferedSink Nat)
        (.recv [7]) .failed).st.queue =
        queueAfterRecv [9] (.recv [7])) ∧
    ((pollFailN 2 (⟨[9], [1, 2], some [1, 2], 3⟩ : BufferedSink Nat)).fut =
        some [1, 2] ∧
      (pollFailN 2 (⟨[9], [1, 2], some [1, 2], 3⟩ : BufferedSink Nat)).inserting =
        [1, 2]) :=
  ⟨sink_retry_identical.1 ⟨[9], [1, 2], some [1, 2], 3⟩ .pending .pending
      ⟨fun b hb => by simpa using hb.symm, fun h => by cases h⟩,
    sink_retry_identical.2.1 ⟨[9], [1, 2], some [1, 2], 3⟩ [1, 2] (.recv [7]) rfl rfl,
    sink_retry_identical.2.2.1 ⟨[9], [1, 2], some [1, 2], 3⟩ [1, 2] 2 rfl rfl⟩

/-! ## Theorems: decode-only path (claim C10) -/

theorem optionTraverse_isSome {α β : Type} (f : α → Option β) (l : List α) :
    (optionTraverse f l).isSome = true ↔ ∀ a, a ∈ l → (f a).isSome = true := by
  induction l with
  | nil => simp [optionTraverse]
  | cons a l ih =>
    constructor
    · intro h x hx
      cases hfa : f a with
      | none => simp [optionTraverse, hfa] at h
      | some b =>
        rw [List.mem_cons] at hx
        rcases hx with rfl | hx
        · simp [hfa]
        · cases hml : optionTraverse f l with
          | none => simp [optionTraverse, hfa, hml] at h
          | some bs => exact ih.mp (by simp [hml]) x hx
    · intro h
      cases hfa : f a with
      | none => exact absurd (h a (List.mem_cons_self a l)) (by simp [hfa])
      | some b =>
        cases hml : optionTraverse f l with
        | none =>
          have := ih.mpr (fun x hx => h x (List.mem_cons_of_mem a hx))
          rw [hml] at this
          simp at this
        | some bs => simp [optionTraverse, hfa, hml]

/-- C10: when the grouped trace map is non-empty, the decode path is
panic-free precisely when every decode-only extractor's pool address occurs as
a key: if some decode-only pool's address is missing, `decode_transactions`
panics on the missing-key unwrap (modelled by `none`) instead of producing
zero records or returning an error; if every decode-only pool's address is
present (or the map is empty), no panic occurs. -/
theorem decode_missing_key_panics {A C R E : Type} [inst : DecidableEq A]
    (pools : List (DecodePool A C R E)) (blockTxs : List (A × List C)) :
    (blockTxs ≠ [] →
      (∃ p, p ∈ pools ∧ p.isDecoded = true ∧
        lookupCalls blockTxs p.poolAddress = none) →
      decodeBlockGrouped pools blockTxs = none) ∧
    ((∀ p, p ∈ pools → p.isDecoded = true →
        (lookupCalls blockTxs p.poolAddress).isSome = true) →
      (decodeBlockGrouped pools blockTxs).isSome = true) := by
  constructor
  · intro hne hex
    obtain ⟨p, hp, hdec, hmiss⟩ := hex
    unfold decodeBlockGrouped
    rw [if_neg (by simpa using hne)]
    unfold decodeTransactions
    have hnone : optionTraverse
        (fun p => (lookupCalls blockTxs p.poolAddress).map p.decodeBlockFn)
        (pools.filter (fun p => p.isDecoded)) = none := by
      rw [← Option.not_isSome_iff_eq_none, optionTraverse_isSome]
      intro hall
      have := hall p (List.mem_filter.mpr ⟨hp, by simp [hdec]⟩)
      rw [hmiss] at this
      simp at this
    rw [hnone]
    rfl
  · intro hall
    unfold decodeBlockGrouped
    by_cases he : blockTxs.isEmpty
    · rw [if_pos he]; rfl
    · rw [if_neg he]
      unfold decodeTransactions
      cases htr : optionTraverse
          (fun p => (lookupCalls blockTxs p.poolAddress).map p.decodeBlockFn)
          (pools.filter (fun p => p.isDecoded)) with
      | some v => simp
      | none =>
        exfalso
        rw [← Option.not_isSome_iff_eq_none, optionTraverse_isSome] at htr
        apply htr
        intro p hp
        rw [List.mem_filter] at hp
        have := hall p hp.1 (by simpa using hp.2)
        cases hlk : lookupCalls blockTxs p.poolAddress with
        | none => rw [hlk] at this; simp at this
        | some c => rfl

/-- Witness for `decode_missing_key_panics`: a non-empty trace map keyed only
by address 2 panics the decode of the pool at address 1, while a map keyed by
address 1 decodes without panic. -/
theorem decode_missing_key_panics_witness :
    decodeBlockGrouped [decodeDemoPool] [(2, ([] : List Nat))] = none ∧
    (decodeBlockGrouped [decodeDemoPool] [(1, ([] : List Nat))]).isSome = true :=
  ⟨(decode_missing_key_panics [decodeDemoPool] [(2, [])]).1 (by simp)
      ⟨decodeDemoPool, by simp, rfl, rfl⟩,
    (decode_missing_key_panics [decodeDemoPool] [(1, [])]).2
      (fun p hp _ => by rw [List.mem_singleton] at hp; subst hp; rfl)⟩

/-! ## Theorems: range scheduler (claim C3) -/

theorem schedInv_init {startB endB : Int} (hrange : startB ≤ endB) :
    SchedInv startB endB (schedInit startB endB) := by
  refine ⟨rfl, by simp [schedInit]; omega, by simp [schedInit], ?_, by simp [schedInit]⟩
  intro h
  simp only [schedInit, Multiset.count_zero, Nat.add_zero]
  constructor
  · rw [if_neg (by omega)]
  · rw [if_neg (by omega)]

theorem schedInv_step {startB endB : Int} {poolsLen : Int → Nat} {s t : SchedState}
    (hstep : SchedStep poolsLen s t) (inv : SchedInv startB endB s) :
    SchedInv startB endB t := by
  obtain ⟨hEnd, hLow, hHigh, hCount, hFin⟩ := inv
  cases hstep with
  | spawn hcur hbudget hrun =>
    refine ⟨hEnd, ?_, ?_, ?_, ?_⟩
    · show startB - 1 ≤ s.currentBlock - 1
      omega
    · show s.currentBlock - 1 ≤ endB
      omega
    · intro h
      obtain ⟨hc1, hc2⟩ := hCount h
      constructor
      · show (s.currentBlock ::ₘ s.spawnedFresh).count h =
          if s.currentBlock - 1 < h ∧ h ≤ endB then 1 else 0
        rw [Multiset.count_cons, hc1]
        split_ifs <;> omega
      · show s.succeeded.count h + (s.currentBlock ::ₘ s.inFlight).count h =
          if s.currentBlock - 1 < h ∧ h ≤ endB then 1 else 0
        rw [Multiset.count_cons]
        split_ifs at hc2 ⊢ <;> omega
    · intro hf
      simp at hf
  | succeed h0 hmem hrun =>
    refine ⟨hEnd, hLow, hHigh, ?_, ?_⟩
    · intro h
      obtain ⟨hc1, hc2⟩ := hCount h
      refine ⟨hc1, ?_⟩
      show (h0 ::ₘ s.succeeded).count h + (s.inFlight.erase h0).count h =
        if s.currentBlock < h ∧ h ≤ endB then 1 else 0
      have hpos : 0 < s.inFlight.count h0 := Multiset.count_pos.mpr hmem
      by_cases hh : h = h0
      · subst hh
        rw [Multiset.count_cons_self, Multiset.count_erase_self]
        split_ifs at hc2 ⊢ <;> omega
      · rw [Multiset.count_cons_of_ne hh, Multiset.count_erase_of_ne hh]
        exact hc2
    · intro hf
      simp at hf
  | fail h0 hmem hrun =>
    have hsame : h0 ::ₘ s.inFlight.erase h0 = s.inFlight := Multiset.cons_erase hmem
    refine ⟨hEnd, hLow, hHigh, ?_, ?_⟩
    · intro h
      refine ⟨(hCount h).1, ?_⟩
      show s.succeeded.count h + (h0 ::ₘ s.inFlight.erase h0).count h =
        if s.currentBlock < h ∧ h ≤ endB then 1 else 0
      rw [hsame]
      exact (hCount h).2
    · intro hf
      simp at hf
  | finish hempty hpast hrun =>
    refine ⟨hEnd, hLow, hHigh, hCount, ?_⟩
    intro _
    refine ⟨hempty, ?_⟩
    show s.currentBlock < startB
    omega

theorem schedInv_reach {startB endB : Int} {poolsLen : Int → Nat} {s : SchedState}
    (hrange : startB ≤ endB)
    (hreach : SchedReach poolsLen (schedInit startB endB) s) :
    SchedInv startB endB s := by
  induction hreach with
  | refl => exact schedInv_init hrange
  | tail hpre hstep ih => exact schedInv_step hstep ih

/-- C3: for a configured range [startB, endB] with startB <= endB (and
startB >= 1, under which the Int model of the u64 cursor is exact), in every
reachable scheduler state each height has been freshly spawned at most once; a
failed caller's height is immediately back in flight (the respawn leaves the
in-flight multiset unchanged); and whenever the scheduler has finished, no
caller is in flight, the cursor has passed every height of the range, and
every height in [startB, endB] was freshly spawned exactly once and reported
success exactly once over the run. -/
theorem scheduler_completeness (startB endB : Int) (poolsLen : Int → Nat)
    (hstart : 1 ≤ startB) (hrange : startB ≤ endB) (s : SchedState)
    (hreach : SchedReach poolsLen (schedInit startB endB) s) :
    (∀ h : Int, s.spawnedFresh.count h ≤ 1) ∧
    (∀ h : Int, h ∈ s.inFlight → h ::ₘ s.inFlight.erase h = s.inFlight) ∧
    (s.finished = true →
      s.inFlight = 0 ∧ s.currentBlock < startB ∧
      (∀ h : Int, startB ≤ h → h ≤ endB →
        s.spawnedFresh.count h = 1 ∧ s.succeeded.count h = 1)) := by
  obtain ⟨hEnd, hLow, hHigh, hCount, hFin⟩ := schedInv_reach hrange hreach
  refine ⟨?_, ?_, ?_⟩
  · intro h
    rw [(hCount h).1]
    split_ifs <;> omega
  · intro h hmem
    exact Multiset.cons_erase hmem
  · intro hf
    obtain ⟨hemp, hcb⟩ := hFin hf
    refine ⟨hemp, hcb, ?_⟩
    intro h h1 h2
    have hc := hCount h
    have hcond : (s.currentBlock < h ∧ h ≤ endB) := ⟨by omega, h2⟩
    constructor
    · rw [hc.1, if_pos hcond]
    · have h3 := hc.2
      rw [if_pos hcond, hemp] at h3
      simpa using h3

/-- Witness for `scheduler_completeness`: a concrete terminated run over the
range [1, 2] with one unit of work per height - spawn 2, spawn 1, fail 2
(respawn), succeed 2, succeed 1, finish - in which both heights succeeded
exactly once. -/
theorem scheduler_completeness_witness :
    (∀ h : Int,
      (⟨0, 1, 0, 0, {1, 2}, {1, 2}, true⟩ : SchedState).spawnedFresh.count h ≤ 1) ∧
    (∀ h : Int, h ∈ (⟨0, 1, 0, 0, {1, 2}, {1, 2}, true⟩ : SchedState).inFlight →
      h ::ₘ (⟨0, 1, 0, 0, {1, 2}, {1, 2}, true⟩ : SchedState).inFlight.erase h =
        (⟨0, 1, 0, 0, {1, 2}, {1, 2}, true⟩ : SchedState).inFlight) ∧
    ((⟨0, 1, 0, 0, {1, 2}, {1, 2}, true⟩ : SchedState).finished = true →
      (⟨0, 1, 0, 0, {1, 2}, {1, 2}, true⟩ : SchedState).inFlight = 0 ∧
      (⟨0, 1, 0, 0, {1, 2}, {1, 2}, true⟩ : SchedState).currentBlock < 1 ∧
      (∀ h : Int, 1 ≤ h → h ≤ 2 →
        (⟨0, 1, 0, 0, {1, 2}, {1, 2}, true⟩ : SchedState).spawnedFresh.count h = 1 ∧
        (⟨0, 1, 0, 0, {1, 2}, {1, 2}, true⟩ : SchedState).succeeded.count h = 1)) := by
  have e1 : SchedStep schedDemoLen (schedInit 1 2)
      ⟨1, 1, {2}, 1, {2}, 0, false⟩ := by
    have h := @SchedStep.spawn schedDemoLen (schedInit 1 2) (by decide) (by decide) rfl
    exact h
  have e2 : SchedStep schedDemoLen (⟨1, 1, {2}, 1, {2}, 0, false⟩ : SchedState)
      ⟨0, 1, {1, 2}, 2, {1, 2}, 0, false⟩ := by
    have h := @SchedStep.spawn schedDemoLen ⟨1, 1, {2}, 1, {2}, 0, false⟩ (by decide) (by decide) rfl
    exact h
  have e3 : SchedStep schedDemoLen (⟨0, 1, {1, 2}, 2, {1, 2}, 0, false⟩ : SchedState)
      ⟨0, 1, {2, 1}, 2, {1, 2}, 0, false⟩ := by
    have h := @SchedStep.fail schedDemoLen (⟨0, 1, {1, 2}, 2, {1, 2}, 0, false⟩ : SchedState) 2
      (by decide) rfl
    exact h
  have e4 : SchedStep schedDemoLen (⟨0, 1, {2, 1}, 2, {1, 2}, 0, false⟩ : SchedState)
      ⟨0, 1, {1}, 1, {1, 2}, {2}, false⟩ := by
    have h := @SchedStep.succeed schedDemoLen (⟨0, 1, {2, 1}, 2, {1, 2}, 0, false⟩ : SchedState) 2
      (by decide) rfl
    exact h
  have e5 : SchedStep schedDemoLen (⟨0, 1, {1}, 1, {1, 2}, {2}, false⟩ : SchedState)
      ⟨0, 1, 0, 0, {1, 2}, {1, 2}, false⟩ := by
    have h := @SchedStep.succeed schedDemoLen (⟨0, 1, {1}, 1, {1, 2}, {2}, false⟩ : SchedState) 1
      (by decide) rfl
    exact h
  have e6 : SchedStep schedDemoLen (⟨0, 1, 0, 0, {1, 2}, {1, 2}, false⟩ : SchedState)
      ⟨0, 1, 0, 0, {1, 2}, {1, 2}, true⟩ := by
    have h := @SchedStep.finish schedDemoLen (⟨0, 1, 0, 0, {1, 2}, {1, 2}, false⟩ : SchedState)
      rfl (by decide) rfl
    exact h
  have hreach : SchedReach schedDemoLen (schedInit 1 2)
      ⟨0, 1, 0, 0, {1, 2}, {1, 2}, true⟩ :=
    Relation.ReflTransGen.head e1 (Relation.ReflTransGen.head e2
      (Relation.ReflTransGen.head e3 (Relation.ReflTransGen.head e4
        (Relation.ReflTransGen.head e5 (Relation.ReflTransGen.head e6
          Relation.ReflTransGen.refl)))))
  exact scheduler_completeness 1 2 schedDemoLen (by decide) (by decide) _ hreach

/-! ## Theorems: slot0 price and trade price (claims C6, C8) -/

theorem calculatePriceQ_eq_spec (s d0 d1 : Nat) :
    calculatePriceQ s d0 d1 = slot0PriceSpecQ s d0 d1 := by
  unfold calculatePriceQ slot0PriceSpecQ
  congr 1
  rw [zpow_sub₀ (by norm_num : (10 : ℚ) ≠ 0), zpow_natCast, zpow_natCast]

theorem floatRep_div_pow64 (n : Int) (hn : |n| ≤ 2 ^ 53) :
    FloatRep ((n : ℚ) / 2 ^ 64) := by
  refine ⟨n, -64, hn, ?_⟩
  rw [zpow_neg]
  rw [div_eq_mul_inv]
  norm_num

theorem floatRep_cases (r : ℚ) (hrep : FloatRep r) :
    (∃ n : Int, r = (n : ℚ) / 2 ^ 64) ∨ |r| ≤ 1 / 2 ^ 12 := by
  obtain ⟨m, e, hm, hr⟩ := hrep
  by_cases he : -64 ≤ e
  · left
    refine ⟨m * 2 ^ (e + 64).toNat, ?_⟩
    have htn : ((e + 64).toNat : Int) = e + 64 := Int.toNat_of_nonneg (by omega)
    have hpow : (2 : ℚ) ^ e * 2 ^ (64 : Nat) = 2 ^ (e + 64).toNat := by
      rw [← zpow_natCast (2 : ℚ) 64, ← zpow_natCast (2 : ℚ) (e + 64).toNat, htn,
        ← zpow_add₀ (two_ne_zero) e]
      norm_num
    rw [hr, eq_div_iff (by positivity : ((2 : ℚ) ^ (64 : Nat)) ≠ 0)]
    push_cast
    rw [mul_assoc, hpow]
  · right
    rw [hr, abs_mul]
    have h2 : |(2 : ℚ) ^ e| = 2 ^ e := abs_of_pos (zpow_pos (by norm_num) e)
    rw [h2]
    have hmq : |(m : ℚ)| ≤ 2 ^ 53 := by
      rw [← Int.cast_abs]
      exact_mod_cast hm
    have heq : (2 : ℚ) ^ e ≤ 2 ^ (-65 : Int) :=
      zpow_le_zpow_right₀ (by norm_num) (by omega)
    calc |(m : ℚ)| * 2 ^ e ≤ 2 ^ 53 * 2 ^ (-65 : Int) := by
          apply mul_le_mul hmq heq (le_of_lt (zpow_pos (by norm_num) e)) (by positivity)
      _ = 1 / 2 ^ 12 := by
          rw [← zpow_natCast (2 : ℚ) 53, ← zpow_add₀ (two_ne_zero)]
          norm_num

theorem slot0_delta_bound :
    |slot0TestPriceQ - slot0TestPriceF64| < 1 / 2 ^ 65 := by
  rw [abs_lt]
  constructor <;>
    (unfold slot0TestPriceQ calculatePriceQ slot0TestSqrtPrice slot0TestPriceF64
     norm_num)

theorem slot0_q_large : 1 / 2 ^ 12 + 1 / 2 ^ 65 < slot0TestPriceQ := by
  unfold slot0TestPriceQ calculatePriceQ slot0TestSqrtPrice
  norm_num

theorem floatRep_slot0F64 : FloatRep slot0TestPriceF64 := by
  rw [show slot0TestPriceF64 = ((4851980905071922 : Int) : ℚ) / 2 ^ 64 by
    norm_num [slot0TestPriceF64]]
  exact floatRep_div_pow64 4851980905071922 (by norm_num)

theorem slot0_grid_sep (n : Int) (hn : n ≠ 4851980905071922) :
    1 / 2 ^ 64 ≤ |(n : ℚ) / 2 ^ 64 - slot0TestPriceF64| := by
  unfold slot0TestPriceF64
  rw [div_sub_div_same, abs_div, abs_of_pos (by positivity : (0 : ℚ) < 2 ^ 64)]
  gcongr
  have h1 : (1 : Int) ≤ |n - 4851980905071922| :=
    Int.one_le_abs (sub_ne_zero.mpr hn)
  calc (1 : ℚ) = ((1 : Int) : ℚ) := by norm_num
    _ ≤ ((|n - 4851980905071922| : Int) : ℚ) := by exact_mod_cast h1
    _ = |(n : ℚ) - 4851980905071922| := by push_cast; ring_nf

theorem slot0_nearest_le (r : ℚ) (hrep : FloatRep r) :
    |slot0TestPriceQ - slot0TestPriceF64| ≤ |slot0TestPriceQ - r| := by
  rcases floatRep_cases r hrep with ⟨n, rfl⟩ | habs
  · by_cases hn : n = 4851980905071922
    · subst hn
      rw [show ((4851980905071922 : Int) : ℚ) / 2 ^ 64 = slot0TestPriceF64 by
        norm_num [slot0TestPriceF64]]
    · have hd := slot0_delta_bound
      have hsep := slot0_grid_sep n hn
      have htri : |(n : ℚ) / 2 ^ 64 - slot0TestPriceF64| ≤
          |(n : ℚ) / 2 ^ 64 - slot0TestPriceQ| +
            |slot0TestPriceQ - slot0TestPriceF64| :=
        abs_sub_le _ _ _
      rw [abs_sub_comm ((n : ℚ) / 2 ^ 64) slot0TestPriceQ] at htri
      linarith
  · have hq := slot0_q_large
    have hd := slot0_delta_bound
    have h2 : r ≤ 1 / 2 ^ 12 := le_trans (le_abs_self r) habs
    have h3 : slot0TestPriceQ - r ≤ |slot0TestPriceQ - r| := le_abs_self _
    linarith

theorem slot0_nearest : NearestF64 slot0TestPriceQ slot0TestPriceF64 :=
  ⟨floatRep_slot0F64, slot0_nearest_le⟩

theorem slot0_nearest_unique (r : ℚ) (h : NearestF64 slot0TestPriceQ r) :
    r = slot0TestPriceF64 := by
  obtain ⟨hrep, hmin⟩ := h
  have h1 : |slot0TestPriceQ - r| ≤ |slot0TestPriceQ - slot0TestPriceF64| :=
    hmin slot0TestPriceF64 floatRep_slot0F64
  have hd := slot0_delta_bound
  rcases floatRep_cases r hrep with ⟨n, rfl⟩ | habs
  · by_cases hn : n = 4851980905071922
    · subst hn
      norm_num [slot0TestPriceF64]
    · exfalso
      have hsep := slot0_grid_sep n hn
      have htri : |(n : ℚ) / 2 ^ 64 - slot0TestPriceF64| ≤
          |(n : ℚ) / 2 ^ 64 - slot0TestPriceQ| +
            |slot0TestPriceQ - slot0TestPriceF64| :=
        abs_sub_le _ _ _
      rw [abs_sub_comm ((n : ℚ) / 2 ^ 64) slot0TestPriceQ] at htri
      linarith
  · exfalso
    have hq := slot0_q_large
    have h2 : r ≤ 1 / 2 ^ 12 := le_trans (le_abs_self r) habs
    have h3 : slot0TestPriceQ - r ≤ |slot0TestPriceQ - r| := le_abs_self _
    linarith

/-- C6 (amended): the slot0 extractor computes, in exact rational arithmetic,
exactly (sqrtPriceX96^2 / 2^192) * 10^(token0_decimals - token1_decimals),
rounding to the nearest representable binary64 value only as the final step;
for sqrt_price_x96 = 1284929393637281108785461745518480, token0_decimals = 6,
token1_decimals = 18, the rounded price is 4851980905071922 * 2^(-64) =
0.00026302641190685814..., not 0.00006. -/
theorem slot0_price_formula :
    (∀ (s d0 d1 : Nat), calculatePriceQ s d0 d1 = slot0PriceSpecQ s d0 d1) ∧
    (∀ r : ℚ, NearestF64 slot0TestPriceQ r ↔ r = slot0TestPriceF64) := by
  refine ⟨calculatePriceQ_eq_spec, fun r => ⟨slot0_nearest_unique r, ?_⟩⟩
  rintro rfl
  exact slot0_nearest

/-- Witness for `slot0_price_formula` at concrete inputs. -/
theorem slot0_price_formula_witness :
    calculatePriceQ 79228162514264337593543950336 6 6 =
      slot0PriceSpecQ 79228162514264337593543950336 6 6 ∧
    (NearestF64 slot0TestPriceQ slot0TestPriceF64 ↔
      slot0TestPriceF64 = slot0TestPriceF64) :=
  ⟨slot0_price_formula.1 79228162514264337593543950336 6 6,
    slot0_price_formula.2 slot0TestPriceF64⟩

/-- C6 counterexample: at the claim's test vector the unique nearest binary64
value of the computed exact rational is 4851980905071922 / 2^64, which is
about 0.000263 - strictly greater than, and different from, the claimed
0.00006 (= 3/50000). -/
theorem slot0_price_not_00006 :
    NearestF64 slot0TestPriceQ slot0TestPriceF64 ∧
    slot0TestPriceF64 ≠ 3 / 50000 ∧
    3 / 50000 < slot0TestPriceF64 :=
  ⟨slot0_nearest, by norm_num [slot0TestPriceF64], by norm_num [slot0TestPriceF64]⟩

/-- C8 counterexample: for token-in amount 2, token-out amount 1,
in-decimals 18, out-decimals 6, the trade extractor's exact rational is
(2/1) / (18/6) = 2/3, while the claimed power-of-ten adjustment (the slot0
strategy) gives 2 * 10^(6-18) = 2/10^12; the two differ, and no binary64
value is simultaneously a nearest rounding of both. -/
theorem trade_price_not_pow10 :
    tradePriceQ 2 1 18 6 = 2 / 3 ∧
    tradePriceSpecQ 2 1 18 6 = 2 / 10 ^ 12 ∧
    tradePriceQ 2 1 18 6 ≠ tradePriceSpecQ 2 1 18 6 ∧
    ¬∃ r : ℚ, NearestF64 (tradePriceQ 2 1 18 6) r ∧
      NearestF64 (tradePriceSpecQ 2 1 18 6) r := by
  have hq1 : tradePriceQ 2 1 18 6 = 2 / 3 := by
    unfold tradePriceQ
    norm_num
  have hq2 : tradePriceSpecQ 2 1 18 6 = 2 / 10 ^ 12 := by
    unfold tradePriceSpecQ
    norm_num
  refine ⟨hq1, hq2, by rw [hq1, hq2]; norm_num, ?_⟩
  rintro ⟨r, ⟨hrep1, hmin1⟩, ⟨hrep2, hmin2⟩⟩
  have hhalf : FloatRep (1 / 2 : ℚ) := ⟨1, -1, by norm_num, by norm_num⟩
  have hzero : FloatRep (0 : ℚ) := ⟨0, 0, by norm_num, by norm_num⟩
  have h1 := hmin1 (1 / 2) hhalf
  have h2 := hmin2 0 hzero
  rw [hq1, show (2 : ℚ) / 3 - 1 / 2 = 1 / 6 by norm_num] at h1
  rw [abs_of_pos (by norm_num : (0 : ℚ) < 1 / 6)] at h1
  rw [hq2, sub_zero, abs_of_pos (by norm_num : (0 : ℚ) < 2 / 10 ^ 12)] at h2
  have h1a := abs_le.mp h1
  have h2a := abs_le.mp h2
  linarith [h1a.1, h1a.2, h2a.1, h2a.2]

/-- C8 (amended): the trade extractor assigns token-in/out by the call
input's zeroForOne flag with the amounts taken from the call output's signed
deltas (zeroForOne picks the token1 side as token-in), and derives the price
in exact rational arithmetic - rounded to nearest binary64 only at the end -
as (|in| / |out|) divided by the ratio of the raw decimal counts
in_decimals / out_decimals (equivalently scaled by out_decimals/in_decimals),
not by powers of ten. -/
theorem poolTrade_sides_and_price {A : Type} (token0 token1 : A) (d0 d1 : Nat)
    (a0 a1 : Int) :
    (poolTradeSides true token0 token1 d0 d1 a0 a1).1 = ⟨token1, d1, a1⟩ ∧
    (poolTradeSides true token0 token1 d0 d1 a0 a1).2 = ⟨token0, d0, a0⟩ ∧
    (poolTradeSides false token0 token1 d0 d1 a0 a1).1 = ⟨token0, d0, a0⟩ ∧
    (poolTradeSides false token0 token1 d0 d1 a0 a1).2 = ⟨token1, d1, a1⟩ ∧
    (∀ (aIn aOut : Int) (dIn dOut : Nat), aOut ≠ 0 → dIn ≠ 0 → dOut ≠ 0 →
      tradePriceQ aIn aOut dIn dOut =
        ((|aIn| : Int) : ℚ) / ((|aOut| : Int) : ℚ) * ((dOut : ℚ) / (dIn : ℚ))) := by
  refine ⟨rfl, rfl, rfl, rfl, ?_⟩
  intro aIn aOut dIn dOut hout hdin hdout
  unfold tradePriceQ
  have h1 : ((|aOut| : Int) : ℚ) ≠ 0 := Int.cast_ne_zero.mpr (abs_ne_zero.mpr hout)
  have h2 : (dIn : ℚ) ≠ 0 := Nat.cast_ne_zero.mpr hdin
  have h3 : (dOut : ℚ) ≠ 0 := Nat.cast_ne_zero.mpr hdout
  field_simp

/-- Witness for `poolTrade_sides_and_price` at concrete tokens and amounts,
with the non-zero side conditions discharged. -/
theorem poolTrade_sides_and_price_witness :
    (poolTradeSides true 10 20 6 18 (-5) 7).1 = ⟨20, 18, 7⟩ ∧
    (poolTradeSides true 10 20 6 18 (-5) 7).2 = ⟨10, 6, -5⟩ ∧
    (poolTradeSides false 10 20 6 18 (-5) 7).1 = ⟨10, 6, -5⟩ ∧
    (poolTradeSides false 10 20 6 18 (-5) 7).2 = ⟨20, 18, 7⟩ ∧
    tradePriceQ 3 (-2) 18 6 =
      ((|(3 : Int)| : Int) : ℚ) / ((|(-2 : Int)| : Int) : ℚ) *
        ((6 : ℚ) / (18 : ℚ)) :=
  ⟨(poolTrade_sides_and_price (10 : Nat) 20 6 18 (-5) 7).1,
    (poolTrade_sides_and_price (10 : Nat) 20 6 18 (-5) 7).2.1,
    (poolTrade_sides_and_price (10 : Nat) 20 6 18 (-5) 7).2.2.1,
    (poolTrade_sides_and_price (10 : Nat) 20 6 18 (-5) 7).2.2.2.1,
    (poolTrade_sides_and_price (10 : Nat) 20 6 18 (-5) 7).2.2.2.2 3 (-2) 18 6
      (by norm_num) (by norm_num) (by norm_num)⟩

/-- Witness for `tick_bitmap_decoding`: the membership characterization
instantiated at word 4, bit mask 2^10, spacing 60 and candidate tick 62040. -/
theorem tick_bitmap_decoding_witness :
    ((62040 : Int) ∈ getTicks [((4 : Int), 2 ^ 10)] 60 ↔
      ∃ wm, wm ∈ [((4 : Int), (2 ^ 10 : Nat))] ∧ ∃ b : Nat, b < 256 ∧
        wm.2.testBit b = true ∧ (62040 : Int) = (wm.1 * 256 + (b : Int)) * 60) :=
  tick_bitmap_decoding.1 [((4 : Int), 2 ^ 10)] 60 62040
